import Mathlib

/-!
Verification development for the `cpol_processing` quality-control pipeline.

The definitions below are a shallow embedding of the Python sources
`cpol_processing/processing/filtering.py` and
`cpol_processing/processing/velocity.py`.  Floating point values are
modelled as rationals (`ℚ`), numpy arrays as lists, and the external
collaborators (scipy's `find_peaks_cwt` peak finder, scipy's
`fmin_l_bfgs_b` optimizer, Py-ART's `_find_regions` segmentation and
`dealias_region_based`) as explicit parameters, since their code is not
part of this repository.  Each definition carries a comment pointing to
the source lines it embeds.
-/

/- ================= filtering.py : `_noise_th` ================== -/

/-- Edge `k` of `np.histogram(x, bins=150, range=(5, max_range))`:
the 151 uniformly spaced edges of the fixed-range histogram
(`filtering.py` line 45). -/
def binEdge (maxRange : ℚ) (k : ℕ) : ℚ := 5 + k * ((maxRange - 5) / 150)

/-- Width of one histogram bin (`bins[1] - bins[0]`). -/
def binWidth (maxRange : ℚ) : ℚ := (maxRange - 5) / 150

/-- Geometric centre of histogram bin `k` (left edge plus half a width).
This is what the spec calls the "bin center"; the source never computes
it (see `noise_th`), it is defined here for comparison. -/
def binCenter (maxRange : ℚ) (k : ℕ) : ℚ := binEdge maxRange k + binWidth maxRange / 2

/-- Count of bin `k` of `np.histogram(x.flatten(), bins=150,
range=(5, max_range))`: values in `[edge k, edge (k+1))`, the last bin
(`k = 149`) also including its right edge, values outside the range
ignored (`filtering.py` line 45). -/
def histCount (maxRange : ℚ) (x : List ℚ) (k : ℕ) : ℕ :=
  (x.filter fun v =>
    decide (binEdge maxRange k ≤ v) &&
      (decide (v < binEdge maxRange (k + 1)) ||
        (k == 149 && decide (v ≤ binEdge maxRange (k + 1))))).length

/-- The 150 bin counts `n` of `filtering.py` line 45. -/
def histogram (maxRange : ℚ) (x : List ℚ) : List ℕ :=
  (List.range 150).map (histCount maxRange x)

/-- The peak-search loop `while (len(peaks) < 1) or (cnt == 0):` of `_noise_th`
(`filtering.py` lines 46-50), embedded with explicit fuel.  `find` is the
external `scipy.signal.find_peaks_cwt` collaborator, applied to the bin
counts and the single candidate width `cnt`.  The loop body executes the
bare expression `cnt - 1`, which does not rebind `cnt`, so the state
carried from one iteration to the next is unchanged; `none` means the
fuel ran out with the loop still running. -/
def peaksLoop (find : List ℕ → ℕ → List ℕ) (n : List ℕ) (cnt : ℕ) : ℕ → Option (List ℕ)
  | 0 => none
  | fuel + 1 =>
    let peaks := find n cnt
    if peaks.length < 1 ∨ cnt = 0 then peaksLoop find n cnt fuel
    else some peaks

/-- Index of the (first) minimum of a list together with its value;
models `argsort()[0]` on the searched span (`filtering.py` line 55; the
order numpy's quicksort gives equal counts is unspecified, the first
occurrence is taken here and tie-free data is used wherever a concrete
value matters). -/
def argminAux : List ℕ → ℕ × ℕ
  | [] => (0, 0)
  | a :: rest =>
    if rest = [] then (0, a)
    else
      let p := argminAux rest
      if a ≤ p.2 then (0, a) else (p.1 + 1, p.2)

/-- Index of the first minimum of a list. -/
def argminIdx (l : List ℕ) : ℕ := (argminAux l).1

/-- Embedding of `_noise_th` (`filtering.py` lines 44-58).  `none`: the `while` loop
never terminated within the fuel; `Except.error ()`: an `IndexError`
escaped (`peaks[1]` with a single peak, or `locs[0]` on an empty span) —
this is the exception `do_gatefilter` catches; `Except.ok t`: the
returned threshold.  Note `centers = bins[0:-1] + (bins[1] - bins[0])`
(line 52) adds a full bin width to the left edges, so
`search_centers[locs[0]]` is `binEdge (k) + binWidth`, the right edge of
bin `k`. -/
def noise_th (find : List ℕ → ℕ → List ℕ) (maxRange : ℚ) (x : List ℚ) (fuel : ℕ) :
    Option (Except Unit ℚ) :=
  let n := histogram maxRange x
  match peaksLoop find n 10 fuel with
  | none => none
  | some peaks =>
    match peaks with
    | p0 :: p1 :: _ =>
      let searchData := (n.drop p0).take (p1 - p0)
      if searchData = [] then some (Except.error ())
      else some (Except.ok (binEdge maxRange (p0 + argminIdx searchData) + binWidth maxRange))
    | _ => some (Except.error ())

/-- The threshold as the spec's words describe it ("the corresponding bin
center is the threshold"): identical to `noise_th` except that the final
value is the centre of the minimum-count bin.  Declared only to compare
the source behaviour against the claim. -/
def noiseThCenterSpec (find : List ℕ → ℕ → List ℕ) (maxRange : ℚ) (x : List ℚ) (fuel : ℕ) :
    Option (Except Unit ℚ) :=
  let n := histogram maxRange x
  match peaksLoop find n 10 fuel with
  | none => none
  | some peaks =>
    match peaks with
    | p0 :: p1 :: _ =>
      let searchData := (n.drop p0).take (p1 - p0)
      if searchData = [] then some (Except.error ())
      else some (Except.ok (binCenter maxRange (p0 + argminIdx searchData)))
    | _ => some (Except.error ())

/- ============== filtering.py : `do_gatefilter` fields ============== -/

/-- Effect of `radar.add_field_like(_, name, data, replace_existing=True)` on the
volume's field table (a name-keyed insertion-ordered dictionary, modelled
as an association list with unique keys): replace in place when the name
exists, append otherwise. -/
def addReplace {V : Type} (fs : List (String × V)) (k : String) (v : V) : List (String × V) :=
  if (fs.lookup k).isSome then
    fs.map fun p => if p.1 = k then (k, v) else p
  else fs ++ [(k, v)]

/-- Effect of `radar.fields.pop(name)`: remove the entry named `k`. -/
def popField {V : Type} (fs : List (String × V)) (k : String) : List (String × V) :=
  fs.filter fun p => p.1 != k

/-- Net effect of `do_gatefilter` (`filtering.py` lines 90-104) on the
caller's field table.  `thresholdOk` is whether `_noise_th` returned a
value (rather than raising); in that case the texture is added under
"TPHI" with `replace_existing=True` and then popped (lines 100-102);
when `_noise_th` raised, only the gatefilter is tightened and the field
table is untouched.  `phi` is read through `.copy()` (line 90) and
Py-ART's `despeckle_field` adds no field, so no other entry changes. -/
def doGatefilterFields {V : Type} (thresholdOk : Bool) (tex : V) (fs : List (String × V)) :
    List (String × V) :=
  if thresholdOk then popField (addReplace fs "TPHI" tex) "TPHI" else fs

/- ================= velocity.py : `unfold_velocity` ================= -/

/-- Mean of a region's gate values (`np.ma.mean`); a region is never
empty in the source (labels come from `_find_regions`), the empty case
is given the junk value `0`. -/
def qmean (l : List ℚ) : ℚ := l.sum / l.length

/-- One region's gate data inside a sweep: the baseline-dealiased
velocities (`vels_slice`), the original raw wrapped velocities
(`vels_uncorrs`), and the simulated sounding velocities
(`svels_slice`). -/
structure RegionGates where
  dealiased : List ℚ
  raw : List ℚ
  sim : List ℚ
deriving Repr

/-- Embedding of `cost_function` (`velocity.py` lines 188-198): for each region of the
sweep, the absolute difference between the region mean of `vels_slice`
(the baseline-dealiased field) shifted by `nyq_vector[i] * v_nyq_vel`
and the region mean of the simulated field, summed.  (The
`np.isfinite` guard of line 195 never fires over `ℚ`.) -/
def cost_function (vnyq : ℚ) (regs : List RegionGates) (nyqVector : List ℚ) : ℚ :=
  ((regs.zip nyqVector).map fun p =>
    |qmean p.1.dealiased + p.2 * vnyq - qmean p.1.sim|).sum

/-- The cost as the claim states it: the region mean of the *raw*
(wrapped) velocities in place of the dealiased ones.  Declared only to
compare the source behaviour against the claim. -/
def costRawSpec (vnyq : ℚ) (regs : List RegionGates) (nyqVector : List ℚ) : ℚ :=
  ((regs.zip nyqVector).map fun p =>
    |qmean p.1.raw + p.2 * vnyq - qmean p.1.sim|).sum

/-- Embedding of `gradient` (`velocity.py` lines 200-212): per region, `+v_nyq_vel`
when the residual `mean(vels_slice) + nyq_vector[i]*v_nyq_vel -
mean(svels_slice)` is `> 0`, else `-v_nyq_vel`. -/
def gradientVector (vnyq : ℚ) (regs : List RegionGates) (nyqVector : List ℚ) : List ℚ :=
  (regs.zip nyqVector).map fun p =>
    if 0 < qmean p.1.dealiased + p.2 * vnyq - qmean p.1.sim then vnyq else -vnyq

/-- Rounding as `np.round` does it: to the nearest integer, ties to the
even integer. -/
def npRound (q : ℚ) : ℤ :=
  let f := ⌊q⌋
  let r := q - f
  if r < 1 / 2 then f
  else if 1 / 2 < r then f + 1
  else if 2 ∣ f then f else f + 1

/-- Result of `np.unique` on a region-label array: the distinct labels in
ascending order. -/
def npUnique (l : List ℕ) : List ℕ :=
  (List.range (l.foldr max 0 + 1)).filter fun k => l.contains k

/-- The shift-application loop of `unfold_velocity`
(`velocity.py` lines 257-262): gate by gate,
`vels_slice[regions == reg] += v_nyq_vel * np.round(nyq_adjustments[0][i])`
where `i` is the rank of the gate's label among `np.unique(regions)`.
`adj` is the optimizer's result vector (`nyq_adjustments[0]`); a rank
beyond its length would raise `IndexError` in the source and is given
the junk adjustment `0` here. -/
def applySweepShifts (vnyq : ℚ) (labels : List ℕ) (vels : List ℚ) (adj : List ℚ) : List ℚ :=
  let uniq := npUnique labels
  (labels.zip vels).map fun p =>
    p.2 + vnyq * (npRound (adj.getD (uniq.findIdx (· == p.1)) 0) : ℚ)

/-- Per-sweep data of the `constrain_sounding` pass: the sweep's slice of
the baseline-dealiased field (`vels[sweep_slice]`) and the region labels
Py-ART's `_find_regions` produced for it (`regions[sweep_slice]`,
label 0 being the filtered gates). -/
structure SweepInput where
  vels : List ℚ
  labels : List ℕ

/-- The `constrain_sounding` block of `unfold_velocity`
(`velocity.py` lines 230-265).  The `for nsweep, sweep_slice in
enumerate(radar.iter_slice())` loop (lines 242-252) computes
`regions[sweep_slice]` for every sweep, but the optimizer call and the
shift-application loop (lines 254-264) are written *outside* that loop,
so after it they run once with `sweep_slice`, `nfeatures` and the
region labels still bound to the final sweep: only the final sweep's
slice of `vels` is modified.  `optimize` is the external
`scipy.optimize.fmin_l_bfgs_b` collaborator (bounds `[-5, 5]` per
region, `maxiter=20`), returning the adjustment vector for the sweep it
is given; an empty volume would leave `sweep_slice` unbound in the
source (`NameError`) and returns `[]` here. -/
def constrainSounding (vnyq : ℚ) (optimize : SweepInput → List ℚ)
    (sweeps : List SweepInput) : List (List ℚ) :=
  match sweeps.getLast? with
  | none => []
  | some last =>
    sweeps.dropLast.map (·.vels) ++
      [applySweepShifts vnyq last.labels last.vels (optimize last)]

/- ====== velocity.py : Nyquist fallback and dealias call choice ====== -/

/-- Largest absolute value of a field (`np.max(np.abs(...))`); `0` for an
empty field (the source would raise there). -/
def maxAbs (l : List ℚ) : ℚ := (l.map fun v => |v|).foldr max 0

/-- The Nyquist-velocity determination of `unfold_velocity`
(`velocity.py` lines 216-220) and of `correct_velocity_unfolding`
(lines 104-107): the instrument parameter when present, otherwise the
maximum absolute value of the velocity field itself, with no error
raised. -/
def nyquistOrMaxAbs (instNyq : Option ℚ) (velData : List ℚ) : ℚ :=
  match instNyq with
  | some v => v
  | none => maxAbs velData

/-- Embedding of `correct_velocity_unfolding` (`velocity.py` lines 100-126) on the
data arrays: gates with `vel < simvel - vnyq` get `+2*vnyq`, gates with
`vel > simvel + vnyq` get `-2*vnyq`. -/
def correct_velocity_unfolding (instNyq : Option ℚ) (vels simvels : List ℚ) : List ℚ :=
  let vnyq := nyquistOrMaxAbs instNyq vels
  (vels.zip simvels).map fun p =>
    p.1 + (if p.1 < p.2 - vnyq then 2 * vnyq else 0) -
      (if p.2 + vnyq < p.1 then 2 * vnyq else 0)

/-- The arguments `unfold_velocity` passes to Py-ART's
`dealias_region_based`; `none` means the argument is left to the
library default. -/
structure RegionDealiasArgs where
  raysWrapAround : Option Bool
  skipBetweenRays : Option ℕ
  nyquistVel : Option ℚ
deriving DecidableEq, Repr

/-- Which dealiasing procedure `unfold_velocity` invokes.  `regionBased`
is Py-ART's region-based algorithm (the only one the source calls);
`perRay` stands for the per-ray unfolding with no region graph that the
spec describes as the fallback — no code path constructs it. -/
inductive DealiasCall where
  | regionBased (args : RegionDealiasArgs)
  | perRay (nyquistVel : ℚ)
deriving DecidableEq, Repr

/-- True exactly on the `perRay` alternative. -/
def DealiasCall.isPerRay : DealiasCall → Bool
  | .perRay _ => true
  | .regionBased _ => false

/-- The `try`/`except` of `unfold_velocity` (`velocity.py` lines
222-227): the primary call is `dealias_region_based(..,
rays_wrap_around=True, .., skip_between_rays=2000)`; when it raises
(`primaryFails`), the fallback call is `dealias_region_based(..,
nyquist_vel=v_nyq_vel)` with every other argument left to the library
default. -/
def unfoldDealias (primaryFails : Bool) (vnyq : ℚ) : DealiasCall :=
  match primaryFails with
  | false => .regionBased ⟨some true, some 2000, none⟩
  | true => .regionBased ⟨none, none, some vnyq⟩

/- ======================= helper lemmas ======================= -/

/-- Indexing into a zip is indexing into both lists. -/
lemma zip_getElem? {α β : Type} (l1 : List α) (l2 : List β) (i : ℕ) :
    (l1.zip l2)[i]? = (l1[i]?).bind fun a => (l2[i]?).map fun b => (a, b) := by
  induction l1 generalizing l2 i with
  | nil => simp
  | cons a rest ih =>
    cases l2 with
    | nil => simp
    | cons b rest2 =>
      cases i with
      | zero => simp
      | succ n => simpa using ih rest2 n

/-- Dropping the last element commutes with `map`. -/
lemma dropLast_map_comm {α β : Type} (f : α → β) (l : List α) :
    (l.map f).dropLast = l.dropLast.map f := by
  induction l with
  | nil => rfl
  | cons a rest ih =>
    cases rest with
    | nil => rfl
    | cons b rest2 => simp [ih]

/-- A `lookup` miss means no entry carries the key. -/
lemma lookup_none_keys {V : Type} (fs : List (String × V)) (k : String)
    (h : fs.lookup k = none) : ∀ p ∈ fs, p.1 ≠ k := by
  induction fs with
  | nil => simp
  | cons a rest ih =>
    have hstep : (k == a.1) = false ∧ rest.lookup k = none := by
      cases hbk : (k == a.1) with
      | true => simp [List.lookup, hbk] at h
      | false =>
        simp only [List.lookup, hbk] at h
        exact ⟨rfl, h⟩
    intro p hp
    rcases List.mem_cons.mp hp with hpa | hpr
    · subst hpa
      intro hkk
      have : (k == p.1) = true := beq_iff_eq.mpr hkk.symm
      rw [this] at hstep
      simp at hstep
    · exact ih hstep.2 p hpr

/- ====================== claim C1 ====================== -/

/-- C1: the sounding-constrained refinement of `unfold_velocity` is NOT
applied per sweep: the optimizer call and the shift application sit
outside the sweep loop, so every sweep except the final one keeps its
baseline-dealiased values unchanged, and only the final sweep receives
the optimized shifts. -/
theorem constrain_sounding_last_sweep_only (vnyq : ℚ) (optimize : SweepInput → List ℚ)
    (sweeps : List SweepInput) :
    (constrainSounding vnyq optimize sweeps).length = sweeps.length ∧
    (constrainSounding vnyq optimize sweeps).dropLast = (sweeps.map (·.vels)).dropLast ∧
    (constrainSounding vnyq optimize sweeps).getLast? = sweeps.getLast?.map
      (fun last => applySweepShifts vnyq last.labels last.vels (optimize last)) := by
  cases hs : sweeps.getLast? with
  | none =>
    have : sweeps = [] := List.getLast?_eq_none_iff.mp hs
    subst this
    simp [constrainSounding]
  | some last =>
    have hne : sweeps ≠ [] := by
      intro h
      subst h
      simp at hs
    constructor
    · simp only [constrainSounding, hs]
      have hlen : 0 < sweeps.length := List.length_pos.mpr hne
      simp [List.length_dropLast]
      omega
    constructor
    · simp only [constrainSounding, hs]
      rw [List.dropLast_concat, dropLast_map_comm]
    · simp only [constrainSounding, hs]
      rw [List.getLast?_concat]
      rfl

/- ====================== claim C2 ====================== -/

/-- C2 (amended): the objective minimized by the sounding-constrained
refinement is the spec's formula with the region means of the
*baseline-dealiased* field in place of the raw (wrapped) field: it
coincides with the spec's cost exactly when each region's raw data is
replaced by its dealiased data. -/
theorem cost_function_uses_dealiased (vnyq : ℚ) (regs : List RegionGates)
    (nyqVector : List ℚ) :
    cost_function vnyq regs nyqVector =
      costRawSpec vnyq (regs.map fun r => ⟨r.dealiased, r.dealiased, r.sim⟩) nyqVector := by
  unfold cost_function costRawSpec
  rw [List.zip_map_left, List.map_map]
  rfl

/-- C2 (counterexample): with one region whose raw mean (90) differs from
its baseline-dealiased mean (30), the cost the code computes differs from
the claimed `|mean(raw) + offset*Nyquist - mean(sim)|`. -/
theorem cost_function_raw_counterexample :
    cost_function 20 [⟨[30], [90], [25]⟩] [0] ≠
      costRawSpec 20 [⟨[30], [90], [25]⟩] [0] := by
  unfold cost_function costRawSpec qmean
  norm_num [abs_of_nonneg]

/- ====================== claim C5 ====================== -/

/-- C5 (amended): when the primary region-based dealiasing call raises,
`unfold_velocity` falls back to the *same* Py-ART region-based dealiaser,
now passing the scalar Nyquist velocity explicitly and leaving the wrap
and skip arguments to the library defaults — not to a per-ray unfolding;
a region graph is still built. -/
theorem unfold_fallback_is_region_based (vnyq : ℚ) :
    unfoldDealias true vnyq = DealiasCall.regionBased ⟨none, none, some vnyq⟩ ∧
    (unfoldDealias true vnyq).isPerRay = false :=
  ⟨rfl, rfl⟩

/-- C5 (counterexample): at Nyquist velocity 10, the fallback call is the
region-based dealiaser, not the per-ray unfolding the claim describes. -/
theorem unfold_fallback_counterexample :
    unfoldDealias true 10 = DealiasCall.regionBased ⟨none, none, some 10⟩ ∧
    unfoldDealias true 10 ≠ DealiasCall.perRay 10 :=
  ⟨rfl, fun h => by simp [unfoldDealias] at h⟩

/- ====================== claim C8 ====================== -/

/-- C8: the optimizer's gradient is `+Nyquist` on a region whose residual
`mean(velocity) + offset*Nyquist - mean(simulated)` is positive and
`-Nyquist` when it is negative. -/
theorem gradient_sign_of_residual (vnyq : ℚ) (regs : List RegionGates)
    (nyqVector : List ℚ) (i : ℕ) (r : RegionGates) (off : ℚ)
    (hr : regs[i]? = some r) (ho : nyqVector[i]? = some off) :
    (0 < qmean r.dealiased + off * vnyq - qmean r.sim →
      (gradientVector vnyq regs nyqVector)[i]? = some vnyq) ∧
    (qmean r.dealiased + off * vnyq - qmean r.sim < 0 →
      (gradientVector vnyq regs nyqVector)[i]? = some (-vnyq)) := by
  have hz : (regs.zip nyqVector)[i]? = some (r, off) := by
    rw [zip_getElem?, hr, ho]
    rfl
  have hg : (gradientVector vnyq regs nyqVector)[i]? =
      some (if 0 < qmean r.dealiased + off * vnyq - qmean r.sim then vnyq else -vnyq) := by
    unfold gradientVector
    rw [List.getElem?_map, hz]
    rfl
  constructor
  · intro hpos
    rw [hg, if_pos hpos]
  · intro hneg
    rw [hg, if_neg (lt_asymm hneg)]

/-- C8 (witness): a single region with dealiased mean 5, simulated mean 1,
offset 0 and Nyquist 2 has positive residual 4, and the gradient there is
`+2`. -/
theorem gradient_sign_witness :
    (gradientVector 2 [⟨[5], [5], [1]⟩] [0])[0]? = some 2 :=
  (gradient_sign_of_residual 2 [⟨[5], [5], [1]⟩] [0] 0 ⟨[5], [5], [1]⟩ 0 rfl rfl).1
    (by norm_num [qmean])

/- ====================== claim C9 ====================== -/

/-- C9 (amended): `do_gatefilter` leaves the caller's field table exactly
as it was — both when `_noise_th` failed (nothing is touched) and when it
succeeded (the "TPHI" texture field is added and then popped) — provided
no field named "TPHI" existed before the call. -/
theorem do_gatefilter_fields_preserved {V : Type} (t : Bool) (tex : V)
    (fs : List (String × V)) (h : fs.lookup "TPHI" = none) :
    doGatefilterFields t tex fs = fs := by
  cases t with
  | false => rfl
  | true =>
    show popField (addReplace fs "TPHI" tex) "TPHI" = fs
    have h2 : addReplace fs "TPHI" tex = fs ++ [("TPHI", tex)] := by
      unfold addReplace
      rw [h]
      rfl
    rw [h2]
    unfold popField
    rw [List.filter_append]
    have h3 : (fs.filter fun p => p.1 != "TPHI") = fs := by
      apply List.filter_eq_self.mpr
      intro p hp
      exact bne_iff_ne.mpr (lookup_none_keys fs "TPHI" h p hp)
    rw [h3]
    simp

/-- C9 (witness): a table holding only a "PHIDP" field is returned
unchanged when the texture pass adds and pops "TPHI". -/
theorem do_gatefilter_fields_witness :
    doGatefilterFields true 7 [("PHIDP", 1)] = [("PHIDP", 1)] :=
  do_gatefilter_fields_preserved true 7 [("PHIDP", 1)] rfl

/-- C9 (counterexample): when a field named "TPHI" already exists on the
caller's volume, `do_gatefilter` overwrites it and then pops it, so the
caller's field table loses that field. -/
theorem do_gatefilter_tphi_counterexample :
    doGatefilterFields true 7 [("PHIDP", 1), ("TPHI", 2)] ≠
      [("PHIDP", 1), ("TPHI", 2)] := by
  intro h
  have := congrArg List.length h
  simp [doGatefilterFields, addReplace, popField, List.lookup] at this

/- ====================== claim C3 ====================== -/

/-- C3: when the external peak finder finds no peak on the texture
histogram at width 10, `_noise_th` never returns: the loop body's bare
expression `cnt - 1` leaves `cnt` at 10 forever, so no other candidate
scan width is ever tried and the `while` loop re-evaluates the same
peak search without end — for every amount of fuel the embedded loop is
still running, and no `NoiseOnlyVolume` signal ever reaches
`do_gatefilter`. -/
theorem noise_th_diverges_without_peaks (find : List ℕ → ℕ → List ℕ) (x : List ℚ)
    (h : find (histogram 90 x) 10 = []) (fuel : ℕ) :
    noise_th find 90 x fuel = none := by
  suffices hs : peaksLoop find (histogram 90 x) 10 fuel = none by
    simp [noise_th, hs]
  induction fuel with
  | zero => rfl
  | succ n ih =>
    show peaksLoop find (histogram 90 x) 10 (n + 1) = none
    unfold peaksLoop
    simp only [h]
    rw [if_pos (Or.inl (by simp))]
    exact ih

/-- C3 (witness): a peak finder that finds nothing leaves `_noise_th`
still looping after 7 iterations. -/
theorem noise_th_diverges_witness :
    noise_th (fun _ _ => []) 90 [] 7 = none :=
  noise_th_diverges_without_peaks (fun _ _ => []) [] rfl 7

/- ================= argmin facts (for claim C4) ================= -/

/-- The value tracked by `argminAux` bounds every element. -/
lemma argminAux_le (l : List ℕ) : ∀ a ∈ l, (argminAux l).2 ≤ a := by
  induction l with
  | nil => simp
  | cons a rest ih =>
    intro b hb
    unfold argminAux
    by_cases hr : rest = []
    · subst hr
      rcases List.mem_cons.mp hb with hba | hbr
      · simp [hba]
      · simp at hbr
    · rw [if_neg hr]
      rcases List.mem_cons.mp hb with hba | hbr
      · subst hba
        by_cases hle : b ≤ (argminAux rest).2
        · rw [if_pos hle]
        · rw [if_neg hle]
          exact le_of_lt (lt_of_not_le hle)
      · by_cases hle : a ≤ (argminAux rest).2
        · rw [if_pos hle]
          exact le_trans hle (ih b hbr)
        · rw [if_neg hle]
          exact ih b hbr

/-- For a nonempty list, `argminAux` returns a valid index whose entry is
the tracked minimum value. -/
lemma argminAux_getD (l : List ℕ) (h : l ≠ []) :
    l.getD (argminAux l).1 0 = (argminAux l).2 ∧ (argminAux l).1 < l.length := by
  induction l with
  | nil => exact absurd rfl h
  | cons a rest ih =>
    unfold argminAux
    by_cases hr : rest = []
    · subst hr
      simp
    · rw [if_neg hr]
      obtain ⟨ih1, ih2⟩ := ih hr
      by_cases hle : a ≤ (argminAux rest).2
      · rw [if_pos hle]
        simp
      · rw [if_neg hle]
        refine ⟨?_, by simpa using ih2⟩
        simpa using ih1

/- ====================== claim C4 ====================== -/

/-- C4 (amended): whenever `_noise_th` returns a value, that value is the
*right edge* of the minimum-count bin of the span between the first two
detected peaks — the bin centre plus half a bin width — because line 52
adds a full bin width (`bins[1] - bins[0]`) to the left edges instead of
half of one; the bin is indeed one of minimum count over the span. -/
theorem noise_th_returns_right_edge (find : List ℕ → ℕ → List ℕ) (maxRange : ℚ)
    (x : List ℚ) (fuel : ℕ) (p0 p1 : ℕ) (rest : List ℕ)
    (hpeaks : peaksLoop find (histogram maxRange x) 10 fuel = some (p0 :: p1 :: rest))
    (hne : ((histogram maxRange x).drop p0).take (p1 - p0) ≠ []) :
    noise_th find maxRange x fuel =
      some (Except.ok (binCenter maxRange
        (p0 + argminIdx (((histogram maxRange x).drop p0).take (p1 - p0))) +
        binWidth maxRange / 2)) ∧
    ∀ c ∈ ((histogram maxRange x).drop p0).take (p1 - p0),
      (((histogram maxRange x).drop p0).take (p1 - p0)).getD
        (argminIdx (((histogram maxRange x).drop p0).take (p1 - p0))) 0 ≤ c := by
  constructor
  · simp only [noise_th, hpeaks]
    rw [if_neg hne]
    have : binCenter maxRange
        (p0 + argminIdx (((histogram maxRange x).drop p0).take (p1 - p0))) +
        binWidth maxRange / 2 =
        binEdge maxRange
          (p0 + argminIdx (((histogram maxRange x).drop p0).take (p1 - p0))) +
          binWidth maxRange := by
      unfold binCenter
      ring
    rw [this]
  · intro c hc
    have hmin := argminAux_le (((histogram maxRange x).drop p0).take (p1 - p0)) c hc
    have hget := (argminAux_getD (((histogram maxRange x).drop p0).take (p1 - p0)) hne).1
    unfold argminIdx
    rw [hget]
    exact hmin

/-- C4 (witness): with peaks at bins 0 and 2 and span counts `[2, 1]`,
the minimum-count bin is bin 1 and the threshold is its right edge. -/
theorem noise_th_right_edge_witness :
    noise_th (fun _ _ => [0, 2]) 90 [5, 5, 28/5] 1 =
      some (Except.ok (binCenter 90
        (0 + argminIdx (((histogram 90 [5, 5, 28/5]).drop 0).take (2 - 0))) +
        binWidth 90 / 2)) :=
  (noise_th_returns_right_edge (fun _ _ => [0, 2]) 90 [5, 5, 28/5] 1 0 2 [] rfl
    (by
      intro h
      have := congrArg List.length h
      simp [histogram] at this)).1

/-- C4 (counterexample): on a concrete texture array with span counts
`[2, 1]` between the detected peaks, `_noise_th` returns `5 + 2*(17/30)`
(the right edge of bin 1) while the bin-centre reading of the claim gives
`5 + 17/30 + 17/60`; the two differ. -/
theorem noise_th_center_counterexample :
    noise_th (fun _ _ => [0, 2]) 90 [5, 5, 28/5] 1 ≠
      noiseThCenterSpec (fun _ _ => [0, 2]) 90 [5, 5, 28/5] 1 := by
  have hsd : ((histogram 90 [5, 5, 28/5]).drop 0).take 2 = [2, 1] := by
    rw [List.drop_zero, histogram, ← List.map_take, List.take_range]
    norm_num
    rw [show List.range 2 = [0, 1] from rfl]
    norm_num [histCount, binEdge, List.filter]
  have e1 : noise_th (fun _ _ => [0, 2]) 90 [5, 5, 28/5] 1 =
      some (Except.ok (5 + 2 * (17/30))) := by
    simp only [noise_th]
    rw [show peaksLoop (fun _ _ => [0, 2]) (histogram 90 [5, 5, 28/5]) 10 1 =
      some [0, 2] from rfl]
    simp only [Nat.sub_zero, hsd]
    norm_num [binEdge, binWidth, argminIdx, argminAux]
    intro h
    simp at h
  have e2 : noiseThCenterSpec (fun _ _ => [0, 2]) 90 [5, 5, 28/5] 1 =
      some (Except.ok (5 + 17/30 + 17/60)) := by
    simp only [noiseThCenterSpec]
    rw [show peaksLoop (fun _ _ => [0, 2]) (histogram 90 [5, 5, 28/5]) 10 1 =
      some [0, 2] from rfl]
    simp only [Nat.sub_zero, hsd]
    norm_num [binCenter, binEdge, binWidth, argminIdx, argminAux]
    intro h
    simp at h
  rw [e1, e2]
  intro h
  have := Except.ok.inj (Option.some.inj h)
  norm_num at this

/- ====================== claim C7 ====================== -/

/-- Every threshold `_noise_th` can return lies on the fixed grid of bin
right-edges determined by the hard-coded histogram range `(5, 90)` and
bin count 150 — independent of the data and of the peak finder. -/
lemma noise_th_on_grid (find : List ℕ → ℕ → List ℕ) (x : List ℚ) (fuel : ℕ) (t : ℚ)
    (h : noise_th find 90 x fuel = some (Except.ok t)) :
    ∃ k : ℕ, t = 5 + (k + 1) * (17 / 30) := by
  simp only [noise_th] at h
  cases hp : peaksLoop find (histogram 90 x) 10 fuel with
  | none => simp [hp] at h
  | some peaks =>
    rw [hp] at h
    rcases peaks with _ | ⟨p0, _ | ⟨p1, rest⟩⟩
    · simp at h
    · simp at h
    · by_cases hne : ((histogram 90 x).drop p0).take (p1 - p0) = []
      · simp only [hne, if_pos] at h
        simp at h
      · simp only [if_neg hne] at h
        have ht : t = binEdge 90
            (p0 + argminIdx (((histogram 90 x).drop p0).take (p1 - p0))) +
            binWidth 90 := ((Except.ok.inj (Option.some.inj h))).symm
        refine ⟨p0 + argminIdx (((histogram 90 x).drop p0).take (p1 - p0)), ?_⟩
        rw [ht]
        unfold binEdge binWidth
        push_cast
        ring

/-- C7 (amended): the threshold does not scale with the data: thresholds
live on the fixed grid `5 + (k+1)*(17/30)` of the hard-coded histogram
range `(5, 90)`, and no grid value doubled is again a grid value, so for
`c = 2` the threshold estimated on `c*x` is never `c` times the
threshold estimated on `x`, whichever peaks are found. -/
theorem noise_th_never_scales (find1 find2 : List ℕ → ℕ → List ℕ) (x : List ℚ)
    (fuel1 fuel2 : ℕ) (t1 t2 : ℚ)
    (h1 : noise_th find1 90 x fuel1 = some (Except.ok t1))
    (h2 : noise_th find2 90 (x.map fun v => 2 * v) fuel2 = some (Except.ok t2)) :
    t2 ≠ 2 * t1 := by
  obtain ⟨k, hk⟩ := noise_th_on_grid find1 x fuel1 t1 h1
  obtain ⟨m, hm⟩ := noise_th_on_grid find2 (x.map fun v => 2 * v) fuel2 t2 h2
  rw [hk, hm]
  intro heq
  have hq : (17 : ℚ) * m = 167 + 34 * k := by linarith
  have hz : 17 * (m : ℤ) = 167 + 34 * (k : ℤ) := by exact_mod_cast hq
  omega

/-- Concrete run of `_noise_th` on a texture array with span counts
`[2, 1, 3]` between peaks 0 and 3: the threshold is `92/15`. -/
lemma noise_th_eval_x7 :
    noise_th (fun _ _ => [0, 3]) 90 [5, 5, 28/5, 31/5, 31/5, 31/5] 1 =
      some (Except.ok (92/15)) := by
  have hsd : ((histogram 90 [5, 5, 28/5, 31/5, 31/5, 31/5]).drop 0).take 3 = [2, 1, 3] := by
    rw [List.drop_zero, histogram, ← List.map_take, List.take_range]
    norm_num
    rw [show List.range 3 = [0, 1, 2] from rfl]
    norm_num [histCount, binEdge, List.filter]
  simp only [noise_th]
  rw [show peaksLoop (fun _ _ => [0, 3])
    (histogram 90 [5, 5, 28/5, 31/5, 31/5, 31/5]) 10 1 = some [0, 3] from rfl]
  simp only [Nat.sub_zero, hsd]
  rw [if_neg (by simp : ([2, 1, 3] : List ℕ) ≠ [])]
  rw [show argminIdx [2, 1, 3] = 1 from rfl]
  norm_num [binEdge, binWidth]

/-- Concrete run of `_noise_th` on the same array doubled: every doubled
value lands far above the first bins, the span counts are `[0, 0, 0]`,
and the threshold is `167/30`. -/
lemma noise_th_eval_x7_scaled :
    noise_th (fun _ _ => [0, 3]) 90
      ([5, 5, 28/5, 31/5, 31/5, 31/5].map fun v => 2 * v) 1 =
      some (Except.ok (167/30)) := by
  have hsd : ((histogram 90
      ([5, 5, 28/5, 31/5, 31/5, 31/5].map fun v => 2 * v)).drop 0).take 3 =
      [0, 0, 0] := by
    rw [List.drop_zero, histogram, ← List.map_take, List.take_range]
    norm_num
    rw [show List.range 3 = [0, 1, 2] from rfl]
    norm_num [histCount, binEdge, List.filter]
  simp only [noise_th]
  rw [show peaksLoop (fun _ _ => [0, 3])
    (histogram 90 ([5, 5, 28/5, 31/5, 31/5, 31/5].map fun v => 2 * v)) 10 1 =
    some [0, 3] from rfl]
  simp only [Nat.sub_zero, hsd]
  rw [if_neg (by simp : ([0, 0, 0] : List ℕ) ≠ [])]
  rw [show argminIdx [0, 0, 0] = 0 from rfl]
  norm_num [binEdge, binWidth]

/-- C7 (counterexample): doubling the concrete texture array does not
double the estimated threshold: `167/30 ≠ 2 * (92/15)`. -/
theorem noise_th_scaling_counterexample :
    noise_th (fun _ _ => [0, 3]) 90
      ([5, 5, 28/5, 31/5, 31/5, 31/5].map fun v => 2 * v) 1 =
      some (Except.ok (167/30)) ∧
    noise_th (fun _ _ => [0, 3]) 90 [5, 5, 28/5, 31/5, 31/5, 31/5] 1 =
      some (Except.ok (92/15)) ∧
    (167 : ℚ)/30 ≠ 2 * (92/15) :=
  ⟨noise_th_eval_x7_scaled, noise_th_eval_x7, by norm_num⟩

/-- C7 (witness): the no-scaling theorem applied to the concrete run. -/
theorem noise_th_never_scales_witness : (167 : ℚ)/30 ≠ 2 * (92/15) :=
  noise_th_never_scales (fun _ _ => [0, 3]) (fun _ _ => [0, 3])
    [5, 5, 28/5, 31/5, 31/5, 31/5] 1 1 (92/15) (167/30)
    noise_th_eval_x7 noise_th_eval_x7_scaled

/- ====================== claim C6 ====================== -/

/-- Rounding an integer returns that integer. -/
lemma npRound_intCast (k : ℤ) : npRound (k : ℚ) = k := by
  unfold npRound
  rw [Int.floor_intCast]
  norm_num

/-- Rounding keeps a value of `[-5, 5]` inside `[-5, 5]`. -/
lemma npRound_bounds {q : ℚ} (h1 : -5 ≤ q) (h2 : q ≤ 5) :
    -5 ≤ npRound q ∧ npRound q ≤ 5 := by
  have hfl : (-5 : ℤ) ≤ ⌊q⌋ := by
    apply Int.le_floor.mpr
    push_cast
    exact h1
  have hfu : ⌊q⌋ ≤ 5 := by
    have h5 : ⌊q⌋ ≤ ⌊(5 : ℚ)⌋ := Int.floor_le_floor h2
    have : ⌊(5 : ℚ)⌋ = 5 := by norm_num
    omega
  unfold npRound
  by_cases hr : q - ⌊q⌋ < 1 / 2
  · rw [if_pos hr]
    exact ⟨hfl, hfu⟩
  · have hq4 : ⌊q⌋ ≤ 4 := by
      have h12 : (1 : ℚ) / 2 ≤ q - ⌊q⌋ := le_of_not_lt hr
      have hlt : ((⌊q⌋ : ℚ)) < ((5 : ℤ) : ℚ) := by
        push_cast
        linarith
      have := Int.cast_lt.mp hlt
      omega
    rw [if_neg hr]
    by_cases hr2 : 1 / 2 < q - ⌊q⌋
    · rw [if_pos hr2]
      exact ⟨by omega, by omega⟩
    · rw [if_neg hr2]
      by_cases he : 2 ∣ ⌊q⌋
      · rw [if_pos he]
        exact ⟨hfl, hfu⟩
      · rw [if_neg he]
        exact ⟨by omega, by omega⟩

/-- Reading `getD` stays inside the optimizer's bound box: entries by membership,
the out-of-range default `0` trivially. -/
lemma getD_bounds (adj : List ℚ) (hb : ∀ a ∈ adj, -5 ≤ a ∧ a ≤ 5) (i : ℕ) :
    -5 ≤ adj.getD i 0 ∧ adj.getD i 0 ≤ 5 := by
  induction adj generalizing i with
  | nil =>
    simp [List.getD]
  | cons a rest ih =>
    cases i with
    | zero => exact hb a (by simp)
    | succ n => exact ih (fun b hbm => hb b (by simp [hbm])) n

/-- C6: every region the sounding-constrained refinement processes is
shifted by exactly `round(offset) * Nyquist` — the optimizer's offset for
that region's rank, rounded to the nearest integer — and, given the
optimizer respects the `[-5, 5]` bound box the code passes to
`fmin_l_bfgs_b`, the rounded integer offset also lies in `[-5, 5]`. -/
theorem sounding_offsets_bounded_rounded (vnyq : ℚ) (labels : List ℕ) (vels : List ℚ)
    (adj : List ℚ) (hb : ∀ a ∈ adj, -5 ≤ a ∧ a ≤ 5) (j lab : ℕ) (v w : ℚ)
    (hl : labels[j]? = some lab) (hv : vels[j]? = some v)
    (hw : (applySweepShifts vnyq labels vels adj)[j]? = some w) :
    w = v + vnyq * (npRound (adj.getD ((npUnique labels).findIdx (· == lab)) 0) : ℚ) ∧
    -5 ≤ npRound (adj.getD ((npUnique labels).findIdx (· == lab)) 0) ∧
    npRound (adj.getD ((npUnique labels).findIdx (· == lab)) 0) ≤ 5 := by
  have hz : (labels.zip vels)[j]? = some (lab, v) := by
    rw [zip_getElem?, hl, hv]
    rfl
  have hw2 : (applySweepShifts vnyq labels vels adj)[j]? =
      some (v + vnyq *
        (npRound (adj.getD ((npUnique labels).findIdx (· == lab)) 0) : ℚ)) := by
    unfold applySweepShifts
    rw [List.getElem?_map, hz]
    rfl
  have hbd := getD_bounds adj hb ((npUnique labels).findIdx (· == lab))
  have hnp := npRound_bounds hbd.1 hbd.2
  rw [hw2] at hw
  exact ⟨(Option.some.inj hw).symm, hnp.1, hnp.2⟩

/-- C6 (witness): Nyquist 10, labels `[1, 1, 2]`, optimizer offsets
`[-1, 2]`: the gate with label 1 is shifted by `round(-1) * 10 = -10`,
and the rounded offset `-1` lies in `[-5, 5]`. -/
theorem sounding_offsets_witness :
    (-9 : ℚ) = 1 + 10 * (npRound ((([-1, 2] : List ℚ).getD
        ((npUnique [1, 1, 2]).findIdx (· == 1)) 0)) : ℚ) ∧
    -5 ≤ npRound ((([-1, 2] : List ℚ).getD ((npUnique [1, 1, 2]).findIdx (· == 1)) 0)) ∧
    npRound ((([-1, 2] : List ℚ).getD ((npUnique [1, 1, 2]).findIdx (· == 1)) 0)) ≤ 5 := by
  have hnp : npRound ((-1 : ℚ)) = -1 := by
    rw [show ((-1 : ℚ)) = (((-1 : ℤ) : ℚ)) by norm_num]
    exact npRound_intCast (-1)
  have hidx : (npUnique [1, 1, 2]).findIdx (· == 1) = 0 := rfl
  have hwEval : (applySweepShifts 10 [1, 1, 2] [1, 2, 3] [-1, 2])[0]? = some ((-9 : ℚ)) := by
    unfold applySweepShifts
    rw [List.getElem?_map]
    rw [show (([1, 1, 2] : List ℕ).zip ([1, 2, 3] : List ℚ))[0]? =
      some (1, (1 : ℚ)) from rfl]
    simp only [Option.map_some']
    rw [hidx]
    rw [show (([-1, 2] : List ℚ).getD 0 0) = -1 from rfl]
    rw [hnp]
    norm_num
  exact sounding_offsets_bounded_rounded 10 [1, 1, 2] [1, 2, 3] [-1, 2]
    (by norm_num) 0 1 1 (-9) rfl rfl hwEval

/- ====================== claim C10 ====================== -/

/-- C10: with no usable `nyquist_velocity` instrument parameter, both
`unfold_velocity` and `correct_velocity_unfolding` silently fall back to
the maximum absolute value of the velocity field as the Nyquist interval
(no error is raised — the embedded functions are total), and every
velocity change they subsequently apply is an integer multiple of that
data-derived value: `correct_velocity_unfolding` moves a gate by
`0` or `±2 * maxAbs`, and the sounding-constrained shift application
moves a gate by `round(offset) * maxAbs`. -/
theorem nyquist_fallback_data_derived (vels sims vels2 adj : List ℚ) (labels : List ℕ)
    (i j : ℕ) (a b c d : ℚ) :
    nyquistOrMaxAbs none vels = maxAbs vels ∧
    (vels[i]? = some a → (correct_velocity_unfolding none vels sims)[i]? = some b →
      ∃ k : ℤ, b - a = (k : ℚ) * maxAbs vels) ∧
    (vels2[j]? = some c →
      (applySweepShifts (nyquistOrMaxAbs none vels) labels vels2 adj)[j]? = some d →
      ∃ k : ℤ, d - c = (k : ℚ) * maxAbs vels) := by
  refine ⟨rfl, ?_, ?_⟩
  · intro ha hb
    unfold correct_velocity_unfolding at hb
    rw [List.getElem?_map, zip_getElem?, ha] at hb
    cases hs : sims[i]? with
    | none =>
      rw [hs] at hb
      simp at hb
    | some s =>
      rw [hs] at hb
      have hb2 : a + (if a < s - nyquistOrMaxAbs none vels
            then 2 * nyquistOrMaxAbs none vels else 0) -
          (if s + nyquistOrMaxAbs none vels < a
            then 2 * nyquistOrMaxAbs none vels else 0) = b := by
        simpa using hb
      have hnm : nyquistOrMaxAbs none vels = maxAbs vels := rfl
      rw [hnm] at hb2
      by_cases c1 : a < s - maxAbs vels <;> by_cases c2 : s + maxAbs vels < a
      · exact ⟨0, by rw [← hb2, if_pos c1, if_pos c2]; push_cast; ring⟩
      · exact ⟨2, by rw [← hb2, if_pos c1, if_neg c2]; push_cast; ring⟩
      · exact ⟨-2, by rw [← hb2, if_neg c1, if_pos c2]; push_cast; ring⟩
      · exact ⟨0, by rw [← hb2, if_neg c1, if_neg c2]; push_cast; ring⟩
  · intro hc hd
    unfold applySweepShifts at hd
    rw [List.getElem?_map, zip_getElem?] at hd
    cases hl : labels[j]? with
    | none =>
      rw [hl] at hd
      simp at hd
    | some lab =>
      rw [hl, hc] at hd
      have hd2 : c + nyquistOrMaxAbs none vels *
          (npRound (adj.getD ((npUnique labels).findIdx (· == lab)) 0) : ℚ) = d := by
        simpa using hd
      refine ⟨npRound (adj.getD ((npUnique labels).findIdx (· == lab)) 0), ?_⟩
      rw [← hd2]
      have hnm : nyquistOrMaxAbs none vels = maxAbs vels := rfl
      rw [hnm]
      ring

/-- C10 (witness): velocity field `[3, 4]` with no instrument parameter
gives the data-derived Nyquist `maxAbs [3, 4] = 4`, and gate 0
(velocity 3, simulated 20) is moved to 11, a `2 * 4` change. -/
theorem nyquist_fallback_witness :
    nyquistOrMaxAbs none [3, 4] = maxAbs [3, 4] ∧
    (∃ k : ℤ, (11 : ℚ) - 3 = (k : ℚ) * maxAbs [3, 4]) := by
  have hm : maxAbs [3, 4] = 4 := by
    unfold maxAbs
    rw [show (([3, 4] : List ℚ).map fun v => |v|) = [|(3 : ℚ)|, |(4 : ℚ)|] from rfl]
    rw [abs_of_nonneg (by norm_num : (0:ℚ) ≤ 3), abs_of_nonneg (by norm_num : (0:ℚ) ≤ 4)]
    rw [show (([3, 4] : List ℚ).foldr max 0) = max 3 (max 4 0) from rfl]
    rw [max_eq_left (by norm_num : (0:ℚ) ≤ 4), max_eq_right (by norm_num : (3:ℚ) ≤ 4)]
  have h := nyquist_fallback_data_derived [3, 4] [20, 0] [] [] [] 0 0 3 11 0 0
  refine ⟨h.1, h.2.1 rfl ?_⟩
  unfold correct_velocity_unfolding
  rw [List.getElem?_map]
  rw [show (([3, 4] : List ℚ).zip ([20, 0] : List ℚ))[0]? =
    some ((3 : ℚ), (20 : ℚ)) from rfl]
  simp only [Option.map_some']
  have hn4 : nyquistOrMaxAbs none [3, 4] = 4 := by
    rw [show nyquistOrMaxAbs none [3, 4] = maxAbs [3, 4] from rfl, hm]
  rw [hn4]
  norm_num
